import Mathlib

/-!
Verification of the llfio byte-oriented asynchronous i/o multiplexer core.

This file shallowly embeds the data model and the operations of the
completion-port i/o multiplexer:

  * `deadline` (src/unnamed/part_003),
  * the scatter-gather read/write path `do_read_write` and `io_handle::barrier`
    (src/include/llfio/v2.0/detail/impl/windows/io_handle.ipp),
  * the completion-port backend `win_iocp_impl`: completion draining,
    deadline bookkeeping and destruction
    (src/include/llfio/v2.0/detail/impl/windows/io_multiplexer.ipp),
  * the posted-work queue and the scoped completion-deferral guard
    (src/unnamed/part_001),

and proves the spec's claims about them.  Machine integers are modelled as
`Nat`/`Int` with explicit masking where the source masks; kernel responses
(NTSTATUS values, OVERLAPPED completion state) are inputs to the embedded
functions, universally quantified in the theorems.
-/

/-! ## Basic data model -/

/-- NTSTATUS values, modelled as integers: negative means failure,
0x103 is STATUS_PENDING, 0x102 is STATUS_TIMEOUT. -/
abbrev NTStatus := Int

/-- Error category of the public operations.  The source returns `errc`
values or wraps an NTSTATUS via `ntkernel_error`; `ntError` carries the
native code for the latter. -/
inductive IoError where
  | notSupported
  | argumentListTooLong
  | timedOut
  | operationCanceled
  | ntError (code : Int)
  deriving DecidableEq, Repr

/-- Structure deadline from src/unnamed/part_003 lines 48-105.  The source
overlays `utc` and `nsecs` in a union; both are carried here, and each
constructor below writes the member the source writes and zeroes the other
(no source operation reads the inactive member: `operator bool`
short-circuits on `steady`). -/
structure Deadline where
  steady : Bool
  utcSec : Int
  utcNsec : Int
  nsecs : Nat
  deriving DecidableEq, Repr

/-- Default constructor `deadline()`: `steady=false, utc{0,0}` — means
"no deadline / wait indefinitely". -/
def Deadline.none : Deadline := ⟨false, 0, 0, 0⟩

/-- Constructor from a chrono duration (part_003 lines 77-92), `ns` being
the duration converted to nanoseconds.  Negative durations are clamped:
"Negative durations are zero duration". -/
def Deadline.fromDurationNs (ns : Int) : Deadline :=
  { steady := true, utcSec := 0, utcNsec := 0,
    nsecs := if ns > 0 then ns.toNat else 0 }

/-- The deadline `operator bool` (part_003 line 65):
`steady || utc.tv_sec != 0`.  A set deadline is one for which this is true. -/
def Deadline.isSet (d : Deadline) : Bool := d.steady || d.utcSec != 0

/-- The deadline-expiry test used by the drain loops
(src/unnamed/part_001 line 196 and io_multiplexer.ipp line 255):
`(d.steady && (d.nsecs == 0 || now >= began_steady)) || (!d.steady && now >= end_utc)`.
The two clock comparisons are abstracted into the booleans `steadyReached`
and `utcReached`; a steady deadline with `nsecs == 0` counts as expired
regardless of the clock. -/
def deadlineExpired (d : Deadline) (steadyReached utcReached : Bool) : Bool :=
  (d.steady && (decide (d.nsecs = 0) || steadyReached)) || (!d.steady && utcReached)

/-- The slice of `native_handle_type` disposition the i/o paths consult. -/
structure NativeHandle where
  nonblocking : Bool
  appendOnly : Bool
  deriving DecidableEq, Repr

/-- A scatter/gather buffer: (address, length) over a byte domain. -/
structure Buffer where
  data : Nat
  size : Nat
  deriving DecidableEq, Repr

/-- Kernel response for one buffer of a scatter-gather submission:
the NTSTATUS the `NtReadFile`/`NtWriteFile` call returned, and the final
state of that buffer's OVERLAPPED record once the i/o is no longer pending
(`Internal` = completion status as a ULONG_PTR, `InternalHigh` = bytes
transferred). -/
structure OvlOutcome where
  submitStatus : Int
  internal : Nat
  internalHigh : Nat
  deriving DecidableEq, Repr

/-! ## do_read_write (io_handle.ipp lines 56-165, blocking instantiation)

The OVERLAPPED offset initialisation (lines 67-99) only populates the
kernel-side records and asserts alignment in debug builds; it does not
affect the returned value and is not modelled.  The per-buffer `ntwait`
loop for nonblocking handles (lines 124-136) is a wait whose effect is
already reflected in the final OVERLAPPED state given by `outs` (the
timed-out branch goes through a macro that is not under src). -/

/-- The submission loop (lines 110-122): each buffer's syscall status is
classified; the first status that is negative and not STATUS_PENDING
aborts the whole call with that kernel error. -/
def submitBuffers : List OvlOutcome → Option Int
  | [] => Option.none
  | o :: rest =>
    if o.submitStatus < 0 ∧ o.submitStatus ≠ 0x103 then some o.submitStatus
    else submitBuffers rest

/-- Reinterpretation of a ULONG_PTR completion status as a 32-bit NTSTATUS,
matching `ntkernel_error(static_cast<NTSTATUS>(ols[n].Internal))` after the
`& 0xffffffff` mask on line 153. -/
def ntFromUlong (u : Nat) : Int :=
  if u % 2 ^ 32 < 2 ^ 31 then ((u % 2 ^ 32 : Nat) : Int)
  else ((u % 2 ^ 32 : Nat) : Int) - 2 ^ 32

/-- The result-assembly loop of `do_read_write` (lines 149-164).  `n` is the
current index, `retLen` the current length of `ret` (`ret` starts as the
whole buffer span and is shrunk to `n + 1` whenever buffer `n` transferred
a nonzero amount).  Returns the rewritten buffers together with the final
`ret` length, or the first nonzero completion status as an error. -/
def assembleLoop : List (Buffer × OvlOutcome) → Nat → Nat →
    Except Int (List Buffer × Nat)
  | [], _, retLen => .ok ([], retLen)
  | (b, o) :: rest, n, retLen =>
    if o.internal % 2 ^ 32 ≠ 0 then .error (ntFromUlong o.internal)
    else
      let b' : Buffer := ⟨b.data, o.internalHigh⟩
      let retLen' := if b'.size ≠ 0 then n + 1 else retLen
      match assembleLoop rest (n + 1) retLen' with
      | .error e => .error e
      | .ok (bs, r) => .ok (b' :: bs, r)

/-- The guard on lines 59-62: deadlined i/o against a handle that is not
capable of nonblocking operation is rejected. -/
def deadlinedIoRejected (nativeh : NativeHandle) (d : Deadline) : Bool :=
  d.isSet && !nativeh.nonblocking

/-- Function `do_read_write` (blocking instantiation, as called by
`io_handle::read` and `io_handle::write`).  `outs` is the kernel's
response for each buffer. -/
def do_read_write (nativeh : NativeHandle) (bufs : List Buffer)
    (offset : Nat) (d : Deadline) (outs : List OvlOutcome) :
    Except IoError (List Buffer) :=
  if deadlinedIoRejected nativeh d then .error .notSupported
  else if bufs.length > 64 then .error .argumentListTooLong
  else match submitBuffers outs with
  | some st => .error (.ntError st)
  | Option.none =>
    match assembleLoop (bufs.zip outs) 0 bufs.length with
    | .error code => .error (.ntError code)
    | .ok (bs, retLen) => .ok (bs.take retLen)

/-- Function `io_handle::max_buffers` (io_handle.ipp lines 30-33). -/
def io_handle_max_buffers : Nat := 1

/-- The four write-reordering barrier kinds. -/
inductive BarrierKind where
  | nowait_data_only
  | wait_data_only
  | nowait_all
  | wait_all
  deriving DecidableEq, Repr

/-- Function `io_handle::barrier` (io_handle.ipp lines 185-222).
`flushStat` is the NTSTATUS returned by `NtFlushBuffersFileEx`, `waitStat`
the status `ntwait` returns if the flush went pending. -/
def io_handle_barrier (nativeh : NativeHandle) (bufs : List Buffer)
    (kind : BarrierKind) (d : Deadline) (flushStat waitStat : Int) :
    Except IoError (List Buffer) :=
  if deadlinedIoRejected nativeh d then .error .notSupported
  else if flushStat = 0x103 then
    if waitStat = 0x102 then .error .timedOut
    else if waitStat < 0 then .error (.ntError waitStat)
    else .ok bufs
  else if flushStat < 0 then .error (.ntError flushStat)
  else .ok bufs

/-! ## win_iocp_impl destructor (io_multiplexer.ipp lines 74-83) -/

/-- Observable outcome of running the completion-port backend destructor. -/
inductive DtorAction where
  | fatalAbort
  | closedPort
  deriving DecidableEq, Repr

/-- Destructor of `win_iocp_impl`: aborts with a diagnostic if
`_total_pending_io > 0`, otherwise closes the completion port handle. -/
def win_iocp_dtor (totalPendingIo : Nat) : DtorAction :=
  if totalPendingIo > 0 then .fatalAbort else .closedPort

/-! ## Completion draining: win_iocp_impl::_do_complete_io
(io_multiplexer.ipp lines 264-319)

Each dequeued OVERLAPPED_ENTRY is either a `post()` wakeup (null completion
key) or carries, in the stashed `hEvent` field, the owning operation.
Operations are identified by `Nat`; the per-operation `is_cancelled_io`
flag is carried as the set of operations for which it is currently set. -/

/-- One completion packet dequeued from the port. -/
inductive IocpPacket where
  | postWakeup
  | ioCompletion (op : Nat)
  deriving DecidableEq, Repr

/-- State threaded through the packet loop: which operations have
`is_cancelled_io` set, which operations had `poll()` (the receiver path)
invoked on them, in order, and the processed-item count. -/
structure CompleteSt where
  cancelled : List Nat
  polled : List Nat
  count : Nat
  deriving DecidableEq, Repr

/-- Processing of one OVERLAPPED_ENTRY (lines 293-313): null keys are
skipped; a packet for an operation with `is_cancelled_io` set clears the
flag and is otherwise discarded; any other packet polls the operation. -/
def completeEntry (s : CompleteSt) (p : IocpPacket) : CompleteSt :=
  match p with
  | .postWakeup => s
  | .ioCompletion op =>
    if op ∈ s.cancelled then
      { s with cancelled := s.cancelled.filter (fun x => x ≠ op) }
    else
      { s with polled := s.polled ++ [op], count := s.count + 1 }

/-- The packet loop of `_do_complete_io` over one filled batch. -/
def completeEntries (s : CompleteSt) : List IocpPacket → CompleteSt
  | [] => s
  | p :: ps => completeEntries (completeEntry s p) ps

/-! ## Posted-work queue (src/unnamed/part_001 lines 162-250)

Callables are identified by `Nat`.  The singly-linked closure chain is a
list in submission order; `_nonzero_items_posted` is the flag.  The source
holds the mutex around queue manipulation; a drain executes without it. -/

/-- Multiplexer posted-work state plus the log of executed callables. -/
structure PostQueueSt where
  queue : List Nat
  flag : Bool
  log : List Nat
  deriving DecidableEq, Repr

/-- Function `io_multiplexer_impl::_post` (lines 237-249): append to the
chain tail and set the non-empty flag.  (When the chain is nonempty the
source skips the flag store, but the flag is already true then.) -/
def postItem (s : PostQueueSt) (f : Nat) : PostQueueSt :=
  { s with queue := s.queue ++ [f], flag := true }

/-- The execution loop of `_execute_posted_items` (lines 183-215) on a
taken chain.  `count` items have been executed so far; `expired i`
models the deadline test taken after the i-th execution (always false
when the supplied deadline is not set).  Returns the executed items in
order, the remainder to splice back, and whether a splice happened (the
flag is re-set only then).  Note the `while(count < max_items)` exit:
when the bound is reached with items remaining and the deadline not
expired, the remainder is dropped, not spliced. -/
def drainGo (expired : Nat → Bool) (maxItems : Nat) :
    List Nat → Nat → List Nat × List Nat × Bool
  | [], _ => ([], [], false)
  | i :: rest, count =>
    let c := count + 1
    if rest.isEmpty then ([i], [], false)
    else if expired c then ([i], rest, true)
    else if c < maxItems then
      let (done, rem, fl) := drainGo expired maxItems rest c
      (i :: done, rem, fl)
    else ([i], [], false)

/-- Function `io_multiplexer_impl::_execute_posted_items` (lines 165-219):
if the flag is set, take the whole chain under the lock (resetting the
flag), walk it, and splice any deadline-cut remainder back at the head of
the queue with the flag re-set.  `maxItems` is already normalised (the
source maps negative values to INT_MAX before the loop). -/
def execute_posted_items (s : PostQueueSt) (maxItems : Nat)
    (expired : Nat → Bool) : PostQueueSt :=
  if s.flag then
    let (done, rem, fl) := drainGo expired maxItems s.queue 0
    { queue := rem, flag := fl, log := s.log ++ done }
  else s

/-! ## Scoped completion deferral: this_thread::delay_invoking_io_completion
(src/unnamed/part_001 lines 45-147)

Thread-local state: the intrusive chain of deferred operations
(`begin`/`end`), the nesting depth, the `count` pointer (aimed at the
integer counter a guard was given; `Option.none` models nullptr) and
`current_raii`.  Guards are identified by the id of their counter; each
guard's saved `_prev` is recorded at construction time.  A `drain` that
dereferences a null `count` pointer is undefined behaviour, modelled as
`Option.none` for the whole run. -/

/-- Thread-local deferral state plus observable effects: receiver
invocations in order, and the counters (association list id ↦ value). -/
structure DelaySt where
  pendingOps : List Nat
  nesting : Nat
  countPtr : Option Nat
  curRaii : Option Nat
  guardPrevs : List (Nat × Option Nat)
  invoked : List Nat
  counters : List (Nat × Nat)
  deriving DecidableEq, Repr

def DelaySt.init : DelaySt := ⟨[], 0, Option.none, Option.none, [], [], []⟩

/-- Look up an association list. -/
def alistGet (l : List (Nat × Option Nat)) (k : Nat) : Option Nat :=
  match l.find? (fun e => e.1 = k) with
  | some e => e.2
  | Option.none => Option.none

/-- Add `v` to counter `k`. -/
def bumpCounter (l : List (Nat × Nat)) (k v : Nat) : List (Nat × Nat) :=
  if l.any (fun e => e.1 = k) then
    l.map (fun e => if e.1 = k then (e.1, e.2 + v) else e)
  else l ++ [(k, v)]

/-- Commands driving the guard machinery on one thread: constructing a
guard over counter `g`, destroying it, and a completion arriving through
`delay_invoking_io_completion::add`. -/
inductive DelayCmd where
  | ctor (g : Nat)
  | dtor (g : Nat)
  | add (op : Nat)
  deriving DecidableEq, Repr

/-- Function `delay_invoking_io_completion::add` (lines 68-91): with no
guard active the completion fires immediately; otherwise the operation is
appended to the thread-local chain. -/
def delayAdd (s : DelaySt) (op : Nat) : DelaySt :=
  if s.nesting = 0 then { s with invoked := s.invoked ++ [op] }
  else { s with pendingOps := s.pendingOps ++ [op] }

/-- The guard constructor (lines 119-131): records `_prev` from
`current_raii`, points the thread-local `count` at this guard's counter and
bumps the nesting depth.  The source never assigns `current_raii = this`
here — `current_raii` is left unchanged. -/
def delayCtor (s : DelaySt) (g : Nat) : DelaySt :=
  { s with guardPrevs := s.guardPrevs ++ [(g, s.curRaii)],
           countPtr := some g,
           nesting := s.nesting + 1 }

/-- The `drain` member (lines 51-66): take the chain, fire each deferred
completion in FIFO order, then `*count += c`.  Dereferencing a null
`count` is undefined behaviour, hence `Option.none`. -/
def delayDrain (s : DelaySt) : Option DelaySt :=
  match s.countPtr with
  | Option.none => Option.none
  | some k =>
    some { s with pendingOps := [],
                  invoked := s.invoked ++ s.pendingOps,
                  counters := bumpCounter s.counters k s.pendingOps.length }

/-- The guard destructor (lines 132-147): the outermost guard drains, then
the nesting drops and `current_raii`/`count` are restored from the saved
`_prev` (which, `current_raii` never having been set, is always null). -/
def delayDtor (s : DelaySt) (g : Nat) : Option DelaySt :=
  let prev := alistGet s.guardPrevs g
  let rest (s' : DelaySt) : DelaySt :=
    { s' with nesting := s'.nesting - 1,
              curRaii := prev,
              countPtr := prev }
  if s.nesting = 1 then
    match delayDrain s with
    | Option.none => Option.none
    | some s' => some (rest s')
  else some (rest s)

/-- One command step. -/
def delayStep (s : DelaySt) : DelayCmd → Option DelaySt
  | .ctor g => some (delayCtor s g)
  | .dtor g => delayDtor s g
  | .add op => some (delayAdd s op)

/-- Running a command sequence from a state; `Option.none` = the program
hit undefined behaviour. -/
def delayRun (s : DelaySt) : List DelayCmd → Option DelaySt
  | [] => some s
  | c :: cs =>
    match delayStep s c with
    | Option.none => Option.none
    | some s' => delayRun s' cs

/-! ## Deadline bookkeeping of win_iocp_impl
(io_multiplexer.ipp: `_register_pending_io` lines 504-536, the insertion
walk of `_do_timeout_io` lines 150-169, `_deregister_pending_io` lines
537-612)

Operations are identified by `Nat`; their deadline anchors are a fixed
environment `ops : Nat → OpInfo`.  The source's `time_point` sentinels
(default-constructed = not set) are modelled by `0 = unset`.  The two
`std::multimap`s are key-sorted association lists; `insert` places a new
entry after existing entries of equal key, `find` yields the first entry
of a key. -/

/-- Deadline anchors of one operation (`deadline_absolute`,
`deadline_duration`); `0` is the default-constructed time point, i.e.
"not set". -/
structure OpInfo where
  deadlineAbsolute : Nat
  deadlineDuration : Nat
  deriving DecidableEq, Repr

/-- An operation carries a deadline iff either anchor is set — the
condition under which `_register_pending_io` links it into the pending
list (lines 510-528). -/
def hasDeadline (info : OpInfo) : Bool :=
  info.deadlineAbsolute ≠ 0 || info.deadlineDuration ≠ 0

/-- State of the backend's deadline bookkeeping: the pending list in
begin→end order, the set of operations with `is_added_to_deadline_list`
set, and the two ordered multimaps. -/
structure MuxSt where
  pending : List Nat
  added : List Nat
  absolutes : List (Nat × Nat)
  durations : List (Nat × Nat)
  deriving DecidableEq, Repr

def MuxSt.init : MuxSt := ⟨[], [], [], []⟩

/-- Multimap insertion: keeps keys sorted, placing the new entry after
existing entries with an equal key (std::multimap::insert). -/
def mmapInsert : List (Nat × Nat) → Nat → Nat → List (Nat × Nat)
  | [], k, v => [(k, v)]
  | (k', v') :: rest, k, v =>
    if k < k' then (k, v) :: (k', v') :: rest
    else (k', v') :: mmapInsert rest k v

/-- The erase logic of `_deregister_pending_io`: `find` the key, scan its
equal range for the entry holding this operation, erase exactly it;
`Option.none` models the two `abort()` calls when no such entry exists.
On a key-sorted list this equals removing the first `(k, v)` pair. -/
def mmapEraseOne : List (Nat × Nat) → Nat → Nat → Option (List (Nat × Nat))
  | [], _, _ => Option.none
  | (k', v') :: rest, k, v =>
    if k' = k ∧ v' = v then some rest
    else match mmapEraseOne rest k v with
         | some l => some ((k', v') :: l)
         | Option.none => Option.none

/-- Function `_register_pending_io`, deadline-list part (lines 508-528):
the operation is appended to the pending list iff it carries a deadline.
(The `_total_pending_io` increment and the wake of sleeping `run`
instances are not modelled.) -/
def register_pending_io (ops : Nat → OpInfo) (s : MuxSt) (op : Nat) : MuxSt :=
  if hasDeadline (ops op) then { s with pending := s.pending ++ [op] }
  else s

/-- Marking `is_added_to_deadline_list` on an operation. -/
def markAdded (s : MuxSt) (op : Nat) : MuxSt :=
  { s with added := if op ∈ s.added then s.added else op :: s.added }

/-- Insertion of one walked operation by `_do_timeout_io` (lines 150-168):
into the wall-clock map when `deadline_absolute` is set, else into the
steady map when `deadline_duration` is set; the flag is set either way. -/
def addOneDeadline (ops : Nat → OpInfo) (s : MuxSt) (op : Nat) : MuxSt :=
  if (ops op).deadlineAbsolute ≠ 0 then
    markAdded { s with
      absolutes := mmapInsert s.absolutes (ops op).deadlineAbsolute op } op
  else if (ops op).deadlineDuration ≠ 0 then
    markAdded { s with
      durations := mmapInsert s.durations (ops op).deadlineDuration op } op
  else markAdded s op

/-- The insertion walk of `_do_timeout_io` (lines 150-169): from
`_pending_end` backwards over the operations not yet added to a deadline
map, inserting each. -/
def do_timeout_io_addNew (ops : Nat → OpInfo) (s : MuxSt) : MuxSt :=
  (s.pending.reverse.takeWhile (fun op => op ∉ s.added)).foldl
    (addOneDeadline ops) s

/-- Function `_deregister_pending_io` (lines 537-612), map and list part:
when the flag is set, exactly the entry for this operation is erased from
the map its set anchor selects (`abort()`, i.e. `Option.none`, if it is
missing), and the operation is unlinked from the pending list.  When the
flag is not set nothing is touched — including the pending list.  (The
cancellation-packet drain and the `_total_pending_io` decrement are not
modelled.) -/
def deregister_pending_io (ops : Nat → OpInfo) (s : MuxSt) (op : Nat) :
    Option MuxSt :=
  if op ∈ s.added then
    if (ops op).deadlineAbsolute ≠ 0 then
      match mmapEraseOne s.absolutes (ops op).deadlineAbsolute op with
      | Option.none => Option.none
      | some m => some { s with absolutes := m, pending := s.pending.erase op }
    else if (ops op).deadlineDuration ≠ 0 then
      match mmapEraseOne s.durations (ops op).deadlineDuration op with
      | Option.none => Option.none
      | some m => some { s with durations := m, pending := s.pending.erase op }
    else some { s with pending := s.pending.erase op }
  else some s

/-- Events the deadline bookkeeping reacts to.  `reg` is constrained to
fresh operations (the caller contract: an operation connection is
registered once and not reused before deregistration), and `dereg` to
operations still pending (deregistration runs once, on completion). -/
inductive MuxEvent where
  | reg (op : Nat)
  | scan
  | dereg (op : Nat)
  deriving DecidableEq, Repr

/-- One event step; guarded no-ops encode the caller contracts above. -/
def muxStep (ops : Nat → OpInfo) (s : MuxSt) : MuxEvent → Option MuxSt
  | .reg op =>
    if op ∈ s.pending ∨ op ∈ s.added then some s
    else some (register_pending_io ops s op)
  | .scan => some (do_timeout_io_addNew ops s)
  | .dereg op =>
    if op ∈ s.pending then deregister_pending_io ops s op else some s

/-- Running an event sequence from the empty multiplexer. -/
def muxRun (ops : Nat → OpInfo) (s : MuxSt) : List MuxEvent → Option MuxSt
  | [] => some s
  | e :: es =>
    match muxStep ops s e with
    | Option.none => Option.none
    | some s' => muxRun ops s' es

/-- Number of entries of a deadline map referring to operation `op`. -/
def entryCount (l : List (Nat × Nat)) (op : Nat) : Nat :=
  l.countP (fun e => e.2 = op)

/-- Invariant of the deadline bookkeeping: the pending list holds each
operation at most once and only operations carrying a deadline; every map
entry is keyed by the anchor of the operation it refers to and sits in the
map that operation's set anchor selects (wall-clock map iff
`deadline_absolute` is set); and an operation has exactly one entry across
both maps iff it is pending with `is_added_to_deadline_list` set. -/
def MuxInv (ops : Nat → OpInfo) (s : MuxSt) : Prop :=
  s.pending.Nodup ∧
  (∀ op ∈ s.pending, hasDeadline (ops op) = true) ∧
  (∀ e ∈ s.absolutes,
    e.1 = (ops e.2).deadlineAbsolute ∧ (ops e.2).deadlineAbsolute ≠ 0) ∧
  (∀ e ∈ s.durations,
    e.1 = (ops e.2).deadlineDuration ∧ (ops e.2).deadlineAbsolute = 0 ∧
      (ops e.2).deadlineDuration ≠ 0) ∧
  (∀ op, entryCount s.absolutes op + entryCount s.durations op =
    if op ∈ s.added ∧ op ∈ s.pending then 1 else 0)

/-! ## Operation lifecycle (claim C1)

The per-operation state machine assembled from `begin_read`/`begin_write`/
`begin_barrier` (io_handle.ipp lines 228-314), the completion routing of
`_do_complete_io` (io_multiplexer.ipp lines 292-313), the timeout path of
`run`/`timeout_io` and `cancel_read`/`cancel_write`/`cancel_barrier`
(io_handle.ipp lines 316-341).

Modelled from the spec: the body of `io_operation_connection::_complete_io`
and of `io_operation_connection::poll` are not under src (only their
declarations and call sites are).  Per spec §3 (OperationConnection
lifecycle) `_complete_io` transitions the operation to *completed* and
invokes the receiver, `poll` completes a finished or expired pending
operation, and per §5 a successful `cancel` delivers `OperationCanceled`
to the receiver while a cancel that lost the race does nothing (the
original completion packet still delivers). -/

/-- Lifecycle phase of one operation connection. -/
inductive OpPhase where
  | notStarted
  | pending
  | completed
  deriving DecidableEq, Repr

/-- Per-operation state: phase, the `is_cancelled_io` flag, and how many
times the receiver has been invoked. -/
structure OpSt where
  phase : OpPhase
  cancelled : Bool
  recv : Nat
  deriving DecidableEq, Repr

def OpSt.init : OpSt := ⟨.notStarted, false, 0⟩

/-- Outcome of the submission syscalls inside `begin_read`/`begin_write`/
`begin_barrier`: completed synchronously (with success or error), or went
pending. -/
inductive SubmitOutcome where
  | immediateSuccess
  | immediateError
  | pendingIo
  deriving DecidableEq, Repr

/-- Events that drive one operation.  `packet` is the arrival of one of
its completion packets at `_do_complete_io`; `timeoutFire` is the expiry
processing in `run`/`timeout_io` for an operation in a deadline map;
`cancelReq` carries whether `ntcancel_pending_io` found the i/o still
cancellable (`do_cancel` returned true). -/
inductive OpEvent where
  | packet (allDone : Bool)
  | submit (out : SubmitOutcome)
  | timeoutFire
  | cancelReq (kernelCancelled : Bool)
  deriving DecidableEq, Repr

/-- One lifecycle step.  `Option.none` marks events that cannot occur for
this operation in this phase (submission happens once; a packet exists
only while the kernel holds the OVERLAPPED records, i.e. for a pending
operation or for the queued cancellation packet of a cancelled one, which
`_deregister_pending_io` drains before teardown; timeouts fire only for
pending operations in a deadline map). -/
def opStep (s : OpSt) : OpEvent → Option OpSt
  | .submit out =>
    match s.phase, out with
    | .notStarted, .immediateSuccess => some { s with phase := .completed, recv := s.recv + 1 }
    | .notStarted, .immediateError => some { s with phase := .completed, recv := s.recv + 1 }
    | .notStarted, .pendingIo => some { s with phase := .pending }
    | _, _ => Option.none
  | .packet allDone =>
    if s.cancelled then
      -- io_multiplexer.ipp lines 309-312: clear the flag, discard the packet
      if s.phase = .pending ∨ s.phase = .completed then
        some { s with cancelled := false }
      else Option.none
    else
      -- lines 304-308: op->poll(); poll (spec-modelled) aggregates the
      -- per-buffer bytes and completes the i/o, invoking the receiver,
      -- once every per-buffer record has finished (`allDone`); a packet
      -- for an operation with further buffers still in flight leaves it
      -- pending
      match s.phase with
      | .pending =>
        if allDone then some { s with phase := .completed, recv := s.recv + 1 }
        else some s
      | _ => Option.none
  | .timeoutFire =>
    match s.phase with
    | .pending =>
      -- spec §4.2.1 step 3: cancel the in-flight records, mark
      -- `is_cancelled_io`, invoke the receiver with TimedOut
      some { s with phase := .completed, cancelled := true, recv := s.recv + 1 }
    | _ => Option.none
  | .cancelReq kernelCancelled =>
    match s.phase, kernelCancelled with
    | .pending, true =>
      -- cancel_read sets `is_cancelled_io`; spec §5: the receiver
      -- receives OperationCanceled (spec-modelled)
      some { s with phase := .completed, cancelled := true, recv := s.recv + 1 }
    | _, _ => some s

/-- Running an event sequence on one operation; `Option.none` = the
sequence contains an event that cannot occur. -/
def opRun (s : OpSt) : List OpEvent → Option OpSt
  | [] => some s
  | e :: es =>
    match opStep s e with
    | Option.none => Option.none
    | some s' => opRun s' es

/-- Per-buffer transfer results: each request buffer rewritten to the
length the kernel reported transferred for it (`reqs.buffers[n] =
{reqs.buffers[n].data(), ols[n].InternalHigh}`, io_handle.ipp line 158). -/
def transferredBufs (bufs : List Buffer) (outs : List OvlOutcome) : List Buffer :=
  (bufs.zip outs).map (fun p => ⟨p.1.data, p.2.internalHigh⟩)

/-- The second half of the claimed C2 invariant as a predicate on a
returned buffer sequence: after the first zero-length segment only
zero-length segments follow. -/
def zeroThenAllZero : List Buffer → Bool
  | [] => true
  | b :: rest =>
    if b.size = 0 then rest.all (fun x => x.size = 0) else zeroThenAllZero rest

/-! ## Theorems -/

/-- C8: destroying the completion-port multiplexer with pending i/o is
fatal (diagnostic and abort); with `total_pending_io == 0` the destructor
closes the port and returns normally. -/
theorem win_iocp_dtor_spec (n : Nat) :
    (0 < n → win_iocp_dtor n = .fatalAbort) ∧
    (n = 0 → win_iocp_dtor n = .closedPort) := by
  refine ⟨fun h => ?_, fun h => ?_⟩ <;> simp [win_iocp_dtor, h]

theorem win_iocp_dtor_spec_witness :
    win_iocp_dtor 1 = .fatalAbort ∧ win_iocp_dtor 0 = .closedPort :=
  ⟨(win_iocp_dtor_spec 1).1 (by decide), (win_iocp_dtor_spec 0).2 rfl⟩

/-- C4: a read, write or barrier carrying a set deadline against a handle
not capable of nonblocking operation fails with `errc::not_supported`
before any i/o is performed — the result does not depend on any kernel
response. -/
theorem deadlined_io_not_supported (nativeh : NativeHandle) (d : Deadline)
    (hd : d.isSet = true) (hnb : nativeh.nonblocking = false) :
    (∀ bufs offset outs,
      do_read_write nativeh bufs offset d outs = .error .notSupported) ∧
    (∀ bufs kind flushStat waitStat,
      io_handle_barrier nativeh bufs kind d flushStat waitStat
        = .error .notSupported) := by
  have hrej : deadlinedIoRejected nativeh d = true := by
    simp [deadlinedIoRejected, hd, hnb]
  exact ⟨fun bufs offset outs => by simp [do_read_write, hrej],
         fun bufs kind f w => by simp [io_handle_barrier, hrej]⟩

theorem deadlined_io_not_supported_witness :
    do_read_write ⟨false, false⟩ [⟨0, 4⟩] 0 (Deadline.fromDurationNs 1)
      [⟨0, 0, 4⟩] = .error .notSupported ∧
    io_handle_barrier ⟨false, false⟩ [] .wait_all (Deadline.fromDurationNs 1)
      0 0 = .error .notSupported :=
  ⟨(deadlined_io_not_supported ⟨false, false⟩ (Deadline.fromDurationNs 1)
      (by decide) rfl).1 _ _ _,
   (deadlined_io_not_supported ⟨false, false⟩ (Deadline.fromDurationNs 1)
      (by decide) rfl).2 _ _ _ _⟩

/-- C5 counterexample: `max_buffers()` reports 1, yet a two-buffer read on
a nonblocking handle — exceeding that reported maximum — succeeds instead
of failing with `errc::argument_list_too_long`: the source only rejects
more than 64 buffers. -/
theorem max_buffers_claim_counterexample :
    io_handle_max_buffers = 1 ∧
    do_read_write ⟨true, false⟩ [⟨0, 4⟩, ⟨8, 4⟩] 0 Deadline.none
      [⟨0, 0, 4⟩, ⟨0, 0, 4⟩] = .ok [⟨0, 4⟩, ⟨8, 4⟩] := ⟨rfl, rfl⟩

/-- C5 amended: a read or write whose scatter-gather buffer count exceeds
64 — the fixed limit of the per-buffer OVERLAPPED array, not the value of
`max_buffers()` — fails with `errc::argument_list_too_long` (provided the
deadline guard did not already reject the call). -/
theorem too_many_buffers_rejected (nativeh : NativeHandle) (bufs : List Buffer)
    (offset : Nat) (d : Deadline) (outs : List OvlOutcome)
    (hguard : deadlinedIoRejected nativeh d = false) (hlen : 64 < bufs.length) :
    do_read_write nativeh bufs offset d outs = .error .argumentListTooLong := by
  simp [do_read_write, hguard, hlen]

theorem too_many_buffers_rejected_witness :
    do_read_write ⟨true, false⟩ (List.replicate 65 ⟨0, 1⟩) 0 Deadline.none []
      = .error .argumentListTooLong :=
  too_many_buffers_rejected _ _ 0 _ [] (by decide) (by simp)

/-- C10: a deadline built from a negative chrono duration is clamped to
the zero steady deadline: `steady` with `nsecs == 0`, identical to the
zero-duration deadline.  It is a set deadline (not "wait indefinitely"),
the i/o paths do not reject it on a nonblocking-capable handle, and the
expiry test counts it as already expired regardless of the clocks — an
immediate poll. -/
theorem negative_duration_deadline (ns : Int) (h : ns < 0) :
    Deadline.fromDurationNs ns = Deadline.fromDurationNs 0 ∧
    (Deadline.fromDurationNs ns).steady = true ∧
    (Deadline.fromDurationNs ns).nsecs = 0 ∧
    (Deadline.fromDurationNs ns).isSet = true ∧
    (∀ steadyReached utcReached,
      deadlineExpired (Deadline.fromDurationNs ns) steadyReached utcReached
        = true) ∧
    (∀ nativeh : NativeHandle, nativeh.nonblocking = true →
      deadlinedIoRejected nativeh (Deadline.fromDurationNs ns) = false) := by
  have hns : ¬ (ns > 0) := by omega
  refine ⟨?_, ?_, ?_, ?_, ?_, ?_⟩
  · simp [Deadline.fromDurationNs, hns]
  · rfl
  · simp [Deadline.fromDurationNs, hns]
  · rfl
  · intro sr ur
    simp [deadlineExpired, Deadline.fromDurationNs, hns]
  · intro nativeh hnbl
    simp [deadlinedIoRejected, Deadline.isSet, Deadline.fromDurationNs, hnbl]

theorem negative_duration_deadline_witness :
    Deadline.fromDurationNs (-5) = Deadline.fromDurationNs 0 ∧
    (Deadline.fromDurationNs (-5)).steady = true ∧
    (Deadline.fromDurationNs (-5)).nsecs = 0 ∧
    (Deadline.fromDurationNs (-5)).isSet = true ∧
    (∀ steadyReached utcReached,
      deadlineExpired (Deadline.fromDurationNs (-5)) steadyReached utcReached
        = true) ∧
    (∀ nativeh : NativeHandle, nativeh.nonblocking = true →
      deadlinedIoRejected nativeh (Deadline.fromDurationNs (-5)) = false) :=
  negative_duration_deadline (-5) (by decide)

/-- C3: when `_do_complete_io` dequeues a completion packet for an
operation whose `is_cancelled_io` flag is set, it clears the flag and
discards the packet: the operation is not polled, the processed count does
not grow, and the rest of the batch is processed on the cleared state —
the receiver is never invoked from a completion packet of a cancelled
operation. -/
theorem cancelled_packet_discarded (s : CompleteSt) (op : Nat)
    (ps : List IocpPacket) (h : op ∈ s.cancelled) :
    op ∉ (completeEntry s (.ioCompletion op)).cancelled ∧
    (completeEntry s (.ioCompletion op)).polled = s.polled ∧
    (completeEntry s (.ioCompletion op)).count = s.count ∧
    completeEntries s (.ioCompletion op :: ps) =
      completeEntries
        { s with cancelled := s.cancelled.filter (fun x => x ≠ op) } ps := by
  refine ⟨?_, ?_, ?_, ?_⟩ <;> simp [completeEntry, completeEntries, h]

theorem cancelled_packet_discarded_witness :
    5 ∈ CompleteSt.cancelled ⟨[5], [], 0⟩ ∧
    5 ∉ (completeEntry ⟨[5], [], 0⟩ (.ioCompletion 5)).cancelled ∧
    (completeEntry ⟨[5], [], 0⟩ (.ioCompletion 5)).polled = [] ∧
    (completeEntry ⟨[5], [], 0⟩ (.ioCompletion 5)).count = 0 :=
  ⟨by decide,
   (cancelled_packet_discarded ⟨[5], [], 0⟩ 5 [] (by decide)).1,
   (cancelled_packet_discarded ⟨[5], [], 0⟩ 5 [] (by decide)).2.1,
   (cancelled_packet_discarded ⟨[5], [], 0⟩ 5 [] (by decide)).2.2.1⟩

/-- C6: the failing input.  Two callables posted, then a drain with
`max_items = 1` and no deadline: the first executes, but the unexecuted
remainder is dropped — neither executed nor left in the queue — because
the `while(count < max_items)` exit path, unlike the deadline-expiry path
(second conjunct, which splices the remainder back in order and re-sets
the flag), never splices. -/
theorem posted_items_dropped_at_max_items :
    execute_posted_items (postItem (postItem ⟨[], false, []⟩ 1) 2) 1
      (fun _ => false) = ⟨[], false, [1]⟩ ∧
    execute_posted_items (postItem (postItem (postItem ⟨[], false, []⟩ 1) 2) 3)
      10 (fun c => c = 1) = ⟨[2, 3], true, [1]⟩ := by decide

/-- C7: the failing input.  Two guards nest; destroying the inner guard
restores the thread-local counter pointer from the guard's saved
`_prev = current_raii` — but the constructor never assigns
`current_raii = this`, so the pointer becomes null instead of aiming at
the outer guard's counter, and the outermost destructor's drain
dereferences it (undefined behaviour, `Option.none`).  The third conjunct
shows the intended behaviour working in the un-nested case: FIFO drain of
the deferred completions and the caller's counter bumped by the number
drained. -/
theorem nested_guard_counter_pointer_lost :
    delayRun DelaySt.init [.ctor 1, .ctor 2, .add 7, .dtor 2] =
      some ⟨[7], 1, Option.none, Option.none,
            [(1, Option.none), (2, Option.none)], [], []⟩ ∧
    delayRun DelaySt.init [.ctor 1, .ctor 2, .add 7, .dtor 2, .dtor 1]
      = Option.none ∧
    delayRun DelaySt.init [.ctor 1, .add 7, .add 8, .dtor 1] =
      some ⟨[], 0, Option.none, Option.none, [(1, Option.none)], [7, 8],
            [(1, 2)]⟩ := by decide

/-- Unfolding equation for the result-assembly loop at a cons cell. -/
theorem assembleLoop_cons (b : Buffer) (o : OvlOutcome)
    (rest : List (Buffer × OvlOutcome)) (n retLen : Nat) :
    assembleLoop ((b, o) :: rest) n retLen =
      if o.internal % 2 ^ 32 ≠ 0 then .error (ntFromUlong o.internal)
      else match assembleLoop rest (n + 1)
          (if o.internalHigh ≠ 0 then n + 1 else retLen) with
        | .error e => .error e
        | .ok (bs, r) => .ok (⟨b.data, o.internalHigh⟩ :: bs, r) := rfl

/-- Specification of a successful result-assembly run: the rewritten
buffers carry exactly the kernel-reported transfer lengths, the final
`ret` length either is the initial one or lies past the starting index but
within the walked range, and every buffer at an index at or past the final
`ret` length transferred zero bytes. -/
theorem assembleLoop_ok_spec (pairs : List (Buffer × OvlOutcome)) :
    ∀ (n retLen : Nat) (bs : List Buffer) (r : Nat),
    assembleLoop pairs n retLen = .ok (bs, r) →
    bs = pairs.map (fun p => ⟨p.1.data, p.2.internalHigh⟩) ∧
    (r = retLen ∨ n < r) ∧
    r ≤ max retLen (n + pairs.length) ∧
    (∀ k, (hk : k < bs.length) → r ≤ n + k → (bs.get ⟨k, hk⟩).size = 0) := by
  induction pairs with
  | nil =>
    intro n retLen bs r h
    simp [assembleLoop] at h
    obtain ⟨hb, hr⟩ := h
    subst hb; subst hr
    refine ⟨rfl, Or.inl rfl, by simp, ?_⟩
    intro k hk
    exact absurd hk (Nat.not_lt_zero k)
  | cons p rest ih =>
    intro n retLen bs r h
    obtain ⟨b, o⟩ := p
    rw [assembleLoop_cons] at h
    by_cases h0 : o.internal % 2 ^ 32 ≠ 0
    · rw [if_pos h0] at h; exact absurd h (by simp)
    · rw [if_neg h0] at h
      cases hA : assembleLoop rest (n + 1)
          (if o.internalHigh ≠ 0 then n + 1 else retLen) with
      | error e => rw [hA] at h; exact absurd h (by simp)
      | ok pr =>
        obtain ⟨bs', r'⟩ := pr
        rw [hA] at h
        simp only [Except.ok.injEq, Prod.mk.injEq] at h
        obtain ⟨hbs, hr⟩ := h
        subst hbs; subst hr
        obtain ⟨hbs', hor, hub, hzero⟩ := ih (n + 1) _ bs' r' hA
        refine ⟨by simp [hbs'], ?_, ?_, ?_⟩
        · by_cases hz : o.internalHigh ≠ 0
          · rw [if_pos hz] at hor
            rcases hor with h1 | h1 <;> omega
          · rw [if_neg hz] at hor
            rcases hor with h1 | h1
            · exact Or.inl h1
            · exact Or.inr (by omega)
        · by_cases hz : o.internalHigh ≠ 0
          · rw [if_pos hz] at hub
            simp only [List.length_cons]
            omega
          · rw [if_neg hz] at hub
            simp only [List.length_cons]
            omega
        · intro k hk hrk
          cases k with
          | zero =>
            by_cases hz : o.internalHigh ≠ 0
            · rw [if_pos hz] at hor
              exact absurd hrk (by omega)
            · simp at hz
              simpa using hz
          | succ k' =>
            have hk' : k' < bs'.length := by
              simpa using Nat.lt_of_succ_lt_succ hk
            have : r' ≤ n + 1 + k' := by omega
            simpa using hzero k' hk' this

/-- C2 counterexample: a successful two-segment read whose first request
buffer is zero-length (transferring zero bytes) and whose second
transfers four.  The returned sequence is `[size 0, size 4]`: a
zero-length returned segment does *not* terminate the prefix that
transferred data, because `ret` is truncated after the *last* nonzero
segment, never at the first zero one. -/
theorem returned_buffers_zero_claim_counterexample :
    do_read_write ⟨true, false⟩ [⟨0, 0⟩, ⟨8, 4⟩] 0 Deadline.none
      [⟨0, 0, 0⟩, ⟨0, 0, 4⟩] = .ok [⟨0, 0⟩, ⟨8, 4⟩] ∧
    zeroThenAllZero [⟨0, 0⟩, ⟨8, 4⟩] = false := ⟨rfl, rfl⟩

/-- C2 amended: for every successful read or write, the returned sequence
never exceeds the request in length, it is exactly the per-buffer
transfer-results truncated to its own length, and every request segment
beyond the returned ones transferred zero bytes (the sequence extends
through the last segment that transferred data; zero-length segments may
appear inside it). -/
theorem returned_buffers_truncation (nativeh : NativeHandle) (bufs : List Buffer)
    (offset : Nat) (d : Deadline) (outs : List OvlOutcome) (res : List Buffer)
    (h : do_read_write nativeh bufs offset d outs = .ok res) :
    res.length ≤ bufs.length ∧
    res = (transferredBufs bufs outs).take res.length ∧
    ((transferredBufs bufs outs).drop res.length).all (fun b => b.size = 0)
      = true := by
  unfold do_read_write at h
  split at h
  · exact absurd h (by simp)
  · split at h
    · exact absurd h (by simp)
    · split at h
      · exact absurd h (by simp)
      · split at h
        · exact absurd h (by simp)
        · rename_i bs retLen hA
          simp only [Except.ok.injEq] at h
          subst h
          obtain ⟨hbs, hor, hub, hzero⟩ :=
            assembleLoop_ok_spec (bufs.zip outs) 0 bufs.length bs retLen hA
          have hL : bs.length = (bufs.zip outs).length := by
            rw [hbs]; simp
          have hzipLen : (bufs.zip outs).length ≤ bufs.length := by
            simp [List.length_zip]
          have hres : (bs.take retLen).length = min retLen bs.length := by
            simp
          have htb : transferredBufs bufs outs = bs := by
            rw [hbs]; rfl
          rw [htb]
          refine ⟨by omega, ?_, ?_⟩
          · rw [hres]
            exact List.take_eq_take.mpr (by omega)
          · rw [hres]
            rw [List.all_eq_true]
            intro x hx
            obtain ⟨⟨j, hj⟩, hget⟩ := List.mem_iff_get.mp hx
            have hjlen : min retLen bs.length + j < bs.length := by
              have := hj
              simp [List.length_drop] at this
              omega
            rw [← List.get_drop bs hjlen] at hget
            subst hget
            rw [decide_eq_true_eq]
            apply hzero
            have := hj
            simp [List.length_drop] at this
            omega

theorem returned_buffers_truncation_witness :
    do_read_write ⟨true, false⟩ [⟨0, 4⟩, ⟨8, 4⟩] 0 Deadline.none
      [⟨0, 0, 4⟩, ⟨0, 0, 2⟩] = .ok [⟨0, 4⟩, ⟨8, 2⟩] ∧
    ([⟨0, 4⟩, ⟨8, 2⟩] : List Buffer).length ≤
      ([⟨0, 4⟩, ⟨8, 4⟩] : List Buffer).length ∧
    [⟨0, 4⟩, ⟨8, 2⟩] =
      (transferredBufs [⟨0, 4⟩, ⟨8, 4⟩] [⟨0, 0, 4⟩, ⟨0, 0, 2⟩]).take 2 ∧
    ((transferredBufs [⟨0, 4⟩, ⟨8, 4⟩] [⟨0, 0, 4⟩, ⟨0, 0, 2⟩]).drop 2).all
      (fun b => b.size = 0) = true := by
  have h := returned_buffers_truncation ⟨true, false⟩ [⟨0, 4⟩, ⟨8, 4⟩] 0
    Deadline.none [⟨0, 0, 4⟩, ⟨0, 0, 2⟩] [⟨0, 4⟩, ⟨8, 2⟩] rfl
  exact ⟨rfl, h.1, h.2.1, h.2.2⟩

/-- One lifecycle step preserves the receiver-count invariant: the
receiver has been invoked exactly once iff the operation has completed. -/
theorem opStep_inv (s : OpSt) (e : OpEvent) (s' : OpSt)
    (h : opStep s e = some s')
    (hinv : s.recv = if s.phase = .completed then 1 else 0) :
    s'.recv = if s'.phase = .completed then 1 else 0 := by
  cases e with
  | submit out =>
    cases hp : s.phase <;> cases out <;>
      simp [opStep, hp] at h <;> subst h <;> simp [hinv, hp] <;>
      simp [hp] at hinv <;> omega
  | packet allDone =>
    by_cases hc : s.cancelled = true
    · cases hp : s.phase <;> simp [opStep, hc, hp] at h <;> subst h <;>
        simpa [hp] using hinv
    · simp only [Bool.not_eq_true] at hc
      cases hp : s.phase <;> simp [opStep, hc, hp] at h
      · cases hall : allDone <;> simp [hall] at h <;> subst h <;>
          simp [hp] at hinv ⊢ <;> omega
  | timeoutFire =>
    cases hp : s.phase <;> simp [opStep, hp] at h <;> subst h <;>
      simp [hp] at hinv ⊢ <;> omega
  | cancelReq kc =>
    cases hp : s.phase <;> cases kc <;> simp [opStep, hp] at h <;> subst h <;>
      simp [hp] at hinv ⊢ <;> omega

/-- The receiver-count invariant holds along every admissible run. -/
theorem opRun_inv (evs : List OpEvent) :
    ∀ (s s' : OpSt), opRun s evs = some s' →
    s.recv = (if s.phase = .completed then 1 else 0) →
    s'.recv = (if s'.phase = .completed then 1 else 0) := by
  induction evs with
  | nil =>
    intro s s' h hi
    simp [opRun] at h
    subst h
    exact hi
  | cons e es ih =>
    intro s s' h hi
    simp only [opRun] at h
    cases hstep : opStep s e with
    | none => rw [hstep] at h; exact absurd h (by simp)
    | some s1 =>
      rw [hstep] at h
      exact ih s1 s' h (opStep_inv s e s1 hstep hi)

/-- C1: over every admissible interleaving of submission, completion
packets, timeout expiry and cancel calls, the receiver of one operation is
never invoked twice, and it has been invoked exactly once precisely when
the operation has reached the completed state — each of the completing
transitions (synchronous completion in `begin_*`, packet delivery,
timeout, successful cancellation) invokes it exactly once, and no path
completes the operation without invoking it. -/
theorem receiver_invoked_exactly_once (evs : List OpEvent) (s : OpSt)
    (h : opRun OpSt.init evs = some s) :
    s.recv ≤ 1 ∧ (s.recv = 1 ↔ s.phase = .completed) := by
  have hinv := opRun_inv evs OpSt.init s h rfl
  constructor
  · rw [hinv]; split <;> omega
  · rw [hinv]
    constructor
    · intro h1
      by_contra hc
      simp [hc] at h1
    · intro h1
      simp [h1]

theorem receiver_invoked_exactly_once_witness :
    (OpSt.mk .completed false 1).recv ≤ 1 ∧
    ((OpSt.mk .completed false 1).recv = 1 ↔
      (OpSt.mk .completed false 1).phase = .completed) :=
  receiver_invoked_exactly_once
    [.submit .pendingIo, .cancelReq true, .packet true]
    ⟨.completed, false, 1⟩ rfl

/-! ### Claim C9: deadline-map bookkeeping -/

theorem mmapInsert_count (l : List (Nat × Nat)) (k v w : Nat) :
    entryCount (mmapInsert l k v) w =
      entryCount l w + (if v = w then 1 else 0) := by
  induction l with
  | nil => simp [mmapInsert, entryCount, List.countP_cons]
  | cons e rest ih =>
    obtain ⟨k', v'⟩ := e
    by_cases hk : k < k'
    · simp [mmapInsert, hk, entryCount, List.countP_cons] <;> omega
    · simp only [mmapInsert, hk, if_neg, ite_false, if_false]
      simp [entryCount, List.countP_cons] at ih ⊢
      omega

theorem mmapInsert_mem (l : List (Nat × Nat)) (k v : Nat) (e : Nat × Nat)
    (h : e ∈ mmapInsert l k v) : e ∈ l ∨ e = (k, v) := by
  induction l with
  | nil => simp [mmapInsert] at h; simp [h]
  | cons x rest ih =>
    obtain ⟨k', v'⟩ := x
    by_cases hk : k < k'
    · simp [mmapInsert, hk] at h
      rcases h with h | h | h
      · exact Or.inr (by simp [h])
      · exact Or.inl (by simp [h])
      · exact Or.inl (by simp [h])
    · simp only [mmapInsert, hk, if_neg, ite_false, if_false] at h
      rcases List.mem_cons.mp h with h | h
      · exact Or.inl (by simp [h])
      · rcases ih h with h | h
        · exact Or.inl (by simp [h])
        · exact Or.inr h

theorem mmapEraseOne_some_of_mem (l : List (Nat × Nat)) (k v : Nat)
    (h : (k, v) ∈ l) : ∃ l', mmapEraseOne l k v = some l' := by
  induction l with
  | nil => simp at h
  | cons e rest ih =>
    obtain ⟨k', v'⟩ := e
    by_cases he : k' = k ∧ v' = v
    · exact ⟨rest, by simp [mmapEraseOne, he]⟩
    · have hmem : (k, v) ∈ rest := by
        rcases List.mem_cons.mp h with h1 | h1
        · exact absurd ⟨(Prod.mk.injEq _ _ _ _ ▸ h1.symm).1,
            (Prod.mk.injEq _ _ _ _ ▸ h1.symm).2⟩ he
        · exact h1
      obtain ⟨l', hl'⟩ := ih hmem
      exact ⟨(k', v') :: l', by simp [mmapEraseOne, he, hl']⟩

theorem mmapEraseOne_spec (l : List (Nat × Nat)) (k v : Nat) :
    ∀ l', mmapEraseOne l k v = some l' →
    entryCount l v = entryCount l' v + 1 ∧
    (∀ w, w ≠ v → entryCount l w = entryCount l' w) ∧
    l.length = l'.length + 1 ∧
    (∀ e, e ∈ l' → e ∈ l) := by
  induction l with
  | nil => intro l' h; simp [mmapEraseOne] at h
  | cons e rest ih =>
    intro l' h
    obtain ⟨k', v'⟩ := e
    by_cases he : k' = k ∧ v' = v
    · simp [mmapEraseOne, he] at h
      subst h
      refine ⟨?_, ?_, by simp, fun e he' => List.mem_cons_of_mem _ he'⟩
      · simp [entryCount, List.countP_cons, he.2]
      · intro w hw
        simp [entryCount, List.countP_cons, he.2, hw.symm]
    · simp only [mmapEraseOne, he, if_neg, ite_false, if_false] at h
      cases hrec : mmapEraseOne rest k v with
      | none => rw [hrec] at h; exact absurd h (by simp)
      | some m =>
        rw [hrec] at h
        simp only [Option.some.injEq] at h
        subst h
        obtain ⟨h1, h2, h3, h4⟩ := ih m hrec
        refine ⟨?_, ?_, by simp [h3], ?_⟩
        · simp [entryCount, List.countP_cons] at h1 ⊢
          omega
        · intro w hw
          have := h2 w hw
          simp [entryCount, List.countP_cons] at this ⊢
          omega
        · intro e he'
          rcases List.mem_cons.mp he' with h5 | h5
          · exact List.mem_cons.mpr (Or.inl h5)
          · exact List.mem_cons.mpr (Or.inr (h4 e h5))

theorem markAdded_fields (s : MuxSt) (op : Nat) (hnadd : op ∉ s.added) :
    (markAdded s op).pending = s.pending ∧
    (markAdded s op).absolutes = s.absolutes ∧
    (markAdded s op).durations = s.durations ∧
    (markAdded s op).added = op :: s.added := by
  simp [markAdded, hnadd]

theorem addOneDeadline_inv (ops : Nat → OpInfo) (s : MuxSt) (op : Nat)
    (hInv : MuxInv ops s) (hpend : op ∈ s.pending) (hnadd : op ∉ s.added) :
    MuxInv ops (addOneDeadline ops s op) ∧
    (addOneDeadline ops s op).pending = s.pending ∧
    (addOneDeadline ops s op).added = op :: s.added := by
  obtain ⟨hnd, hdl, habs, hdur, hcnt⟩ := hInv
  have hzero : entryCount s.absolutes op = 0 ∧ entryCount s.durations op = 0 := by
    have := hcnt op
    rw [if_neg (by simp [hnadd])] at this
    omega
  have hdead : hasDeadline (ops op) = true := hdl op hpend
  have hcount : ∀ (abs' dur' : List (Nat × Nat)),
      (∀ w, entryCount abs' w + entryCount dur' w =
        entryCount s.absolutes w + entryCount s.durations w +
          (if op = w then 1 else 0)) →
      (∀ w, entryCount abs' w + entryCount dur' w =
        if w ∈ op :: s.added ∧ w ∈ s.pending then 1 else 0) := by
    intro abs' dur' hw w
    have h1 := hw w
    have h2 := hcnt w
    by_cases hweq : w = op
    · rw [hweq] at h1 h2 ⊢
      rw [if_neg (by simp [hnadd])] at h2
      rw [if_pos ⟨List.mem_cons_self _ _, hpend⟩]
      rw [if_pos rfl] at h1
      omega
    · rw [if_neg (fun hc => hweq hc.symm)] at h1
      have hmw : (w ∈ op :: s.added ∧ w ∈ s.pending) ↔
          (w ∈ s.added ∧ w ∈ s.pending) := by
        simp [List.mem_cons, hweq]
      by_cases hws : w ∈ s.added ∧ w ∈ s.pending
      · rw [if_pos hws] at h2
        rw [if_pos (hmw.mpr hws)]
        omega
      · rw [if_neg hws] at h2
        rw [if_neg (fun hc => hws (hmw.mp hc))]
        omega
  unfold addOneDeadline
  by_cases hA : (ops op).deadlineAbsolute ≠ 0
  · rw [if_pos hA]
    simp only [markAdded, if_neg hnadd]
    refine ⟨⟨hnd, hdl, ?_, hdur, ?_⟩, trivial, trivial⟩
    · intro e he
      rcases mmapInsert_mem _ _ _ _ he with h | h
      · exact habs e h
      · subst h; exact ⟨rfl, hA⟩
    · apply hcount
      intro w
      rw [mmapInsert_count]
      by_cases hweq : op = w <;> simp [hweq] <;> omega
  · rw [if_neg hA]
    push_neg at hA
    by_cases hD : (ops op).deadlineDuration ≠ 0
    · rw [if_pos hD]
      simp only [markAdded, if_neg hnadd]
      refine ⟨⟨hnd, hdl, habs, ?_, ?_⟩, trivial, trivial⟩
      · intro e he
        rcases mmapInsert_mem _ _ _ _ he with h | h
        · exact hdur e h
        · subst h; exact ⟨rfl, hA, hD⟩
      · apply hcount
        intro w
        rw [mmapInsert_count]
        by_cases hweq : op = w <;> simp [hweq] <;> omega
    · exfalso
      push_neg at hD
      simp [hasDeadline, hA, hD] at hdead

theorem foldAdd_inv (ops : Nat → OpInfo) :
    ∀ (l : List Nat) (s : MuxSt), MuxInv ops s → l.Nodup →
    (∀ op ∈ l, op ∈ s.pending ∧ op ∉ s.added) →
    MuxInv ops (l.foldl (addOneDeadline ops) s) ∧
    (l.foldl (addOneDeadline ops) s).pending = s.pending ∧
    (∀ w, w ∈ (l.foldl (addOneDeadline ops) s).added ↔ w ∈ s.added ∨ w ∈ l) := by
  intro l
  induction l with
  | nil =>
    intro s hInv _ _
    exact ⟨hInv, rfl, fun w => by simp⟩
  | cons op rest ih =>
    intro s hInv hnd hmem
    obtain ⟨hInv', hp', ha'⟩ := addOneDeadline_inv ops s op hInv
      (hmem op (List.mem_cons_self _ _)).1 (hmem op (List.mem_cons_self _ _)).2
    have hndrest : rest.Nodup := (List.nodup_cons.mp hnd).2
    have hopnotrest : op ∉ rest := (List.nodup_cons.mp hnd).1
    have hmemrest : ∀ w ∈ rest, w ∈ (addOneDeadline ops s op).pending ∧
        w ∉ (addOneDeadline ops s op).added := by
      intro w hw
      refine ⟨by rw [hp']; exact (hmem w (List.mem_cons_of_mem _ hw)).1, ?_⟩
      rw [ha']
      intro hc
      rcases List.mem_cons.mp hc with h | h
      · exact absurd h.symm (by rintro rfl; exact hopnotrest hw)
      · exact (hmem w (List.mem_cons_of_mem _ hw)).2 h
    obtain ⟨hI, hP, hA⟩ := ih (addOneDeadline ops s op) hInv' hndrest hmemrest
    refine ⟨by simpa [List.foldl_cons] using hI,
            by rw [List.foldl_cons, hP, hp'], ?_⟩
    intro w
    rw [List.foldl_cons, hA w, ha']
    simp [List.mem_cons]
    tauto

theorem countP_zero_of_none (l : List (Nat × Nat)) (op : Nat)
    (h : ∀ e ∈ l, e.2 ≠ op) : entryCount l op = 0 := by
  rw [entryCount, List.countP_eq_zero]
  intro e he
  simpa using h e he

theorem dereg_inv (ops : Nat → OpInfo) (s : MuxSt) (op : Nat)
    (hInv : MuxInv ops s) (hpend : op ∈ s.pending) (hadd : op ∈ s.added) :
    ∃ s', deregister_pending_io ops s op = some s' ∧ MuxInv ops s' ∧
      s'.added = s.added ∧
      entryCount s'.absolutes op = 0 ∧ entryCount s'.durations op = 0 ∧
      s'.absolutes.length + s'.durations.length + 1
        = s.absolutes.length + s.durations.length ∧
      (∀ w, w ≠ op → entryCount s'.absolutes w = entryCount s.absolutes w ∧
        entryCount s'.durations w = entryCount s.durations w) := by
  obtain ⟨hnd, hdl, habs, hdur, hcnt⟩ := hInv
  have hone : entryCount s.absolutes op + entryCount s.durations op = 1 := by
    have := hcnt op
    rwa [if_pos ⟨hadd, hpend⟩] at this
  have hdead : hasDeadline (ops op) = true := hdl op hpend
  by_cases hA : (ops op).deadlineAbsolute ≠ 0
  · have hdzero : entryCount s.durations op = 0 := by
      apply countP_zero_of_none
      intro e he hc
      exact absurd ((hdur e he).2.1) (by rw [hc]; exact hA)
    have haone : entryCount s.absolutes op = 1 := by omega
    have hmem : ((ops op).deadlineAbsolute, op) ∈ s.absolutes := by
      have hpos : 0 < s.absolutes.countP (fun e => e.2 = op) := by
        rw [← entryCount]; omega
      obtain ⟨e, he, hpe⟩ := List.countP_pos.mp hpos
      have he2 : e.2 = op := by simpa using hpe
      have := (habs e he).1
      rw [he2] at this
      rw [← this, ← he2]
      exact he
    obtain ⟨m, hm⟩ := mmapEraseOne_some_of_mem _ _ _ hmem
    obtain ⟨hc1, hc2, hc3, hc4⟩ := mmapEraseOne_spec _ _ _ m hm
    refine ⟨{ s with absolutes := m, pending := s.pending.erase op },
      ?_, ?_, rfl, ?_, hdzero, ?_, ?_⟩
    · unfold deregister_pending_io
      rw [if_pos hadd, if_pos hA, hm]
    · refine ⟨hnd.erase op, ?_, ?_, hdur, ?_⟩
      · intro w hw
        exact hdl w (List.erase_subset _ _ hw)
      · intro e he
        exact habs e (hc4 e he)
      · intro w
        by_cases hweq : w = op
        · subst hweq
          rw [if_neg ?_]
          · show entryCount m w + entryCount s.durations w = 0
            omega
          · rintro ⟨-, hcon⟩
            exact absurd hcon (by simp [List.Nodup.mem_erase_iff hnd])
        · have := hcnt w
          have hm1 := hc2 w hweq
          have hmw : (w ∈ s.added ∧ w ∈ s.pending.erase op) ↔
              (w ∈ s.added ∧ w ∈ s.pending) := by
            simp [List.Nodup.mem_erase_iff hnd, hweq]
          by_cases hws : w ∈ s.added ∧ w ∈ s.pending
          · rw [if_pos hws] at this
            rw [if_pos (hmw.mpr hws)]
            show entryCount m w + entryCount s.durations w = 1
            omega
          · rw [if_neg hws] at this
            rw [if_neg (fun hc => hws (hmw.mp hc))]
            show entryCount m w + entryCount s.durations w = 0
            omega
    · show entryCount m op = 0
      omega
    · show m.length + s.durations.length + 1
        = s.absolutes.length + s.durations.length
      omega
    · intro w hw
      exact ⟨(hc2 w hw).symm, rfl⟩
  · have hA0 : (ops op).deadlineAbsolute = 0 := by simpa using hA
    have hD : (ops op).deadlineDuration ≠ 0 := by
      by_contra hD
      have hD0 : (ops op).deadlineDuration = 0 := by simpa using hD
      simp [hasDeadline, hA0, hD0] at hdead
    have hazero : entryCount s.absolutes op = 0 := by
      apply countP_zero_of_none
      intro e he hc
      exact absurd ((habs e he).2) (by rw [hc, hA0]; simp)
    have hdone : entryCount s.durations op = 1 := by omega
    have hmem : ((ops op).deadlineDuration, op) ∈ s.durations := by
      have hpos : 0 < s.durations.countP (fun e => e.2 = op) := by
        rw [← entryCount]; omega
      obtain ⟨e, he, hpe⟩ := List.countP_pos.mp hpos
      have he2 : e.2 = op := by simpa using hpe
      have := (hdur e he).1
      rw [he2] at this
      rw [← this, ← he2]
      exact he
    obtain ⟨m, hm⟩ := mmapEraseOne_some_of_mem _ _ _ hmem
    obtain ⟨hc1, hc2, hc3, hc4⟩ := mmapEraseOne_spec _ _ _ m hm
    refine ⟨{ s with durations := m, pending := s.pending.erase op },
      ?_, ?_, rfl, hazero, ?_, ?_, ?_⟩
    · unfold deregister_pending_io
      rw [if_pos hadd, if_neg (by simp [hA0]), if_pos hD, hm]
    · refine ⟨hnd.erase op, ?_, habs, ?_, ?_⟩
      · intro w hw
        exact hdl w (List.erase_subset _ _ hw)
      · intro e he
        exact hdur e (hc4 e he)
      · intro w
        by_cases hweq : w = op
        · subst hweq
          rw [if_neg ?_]
          · show entryCount s.absolutes w + entryCount m w = 0
            omega
          · rintro ⟨-, hcon⟩
            exact absurd hcon (by simp [List.Nodup.mem_erase_iff hnd])
        · have := hcnt w
          have hm1 := hc2 w hweq
          have hmw : (w ∈ s.added ∧ w ∈ s.pending.erase op) ↔
              (w ∈ s.added ∧ w ∈ s.pending) := by
            simp [List.Nodup.mem_erase_iff hnd, hweq]
          by_cases hws : w ∈ s.added ∧ w ∈ s.pending
          · rw [if_pos hws] at this
            rw [if_pos (hmw.mpr hws)]
            show entryCount s.absolutes w + entryCount m w = 1
            omega
          · rw [if_neg hws] at this
            rw [if_neg (fun hc => hws (hmw.mp hc))]
            show entryCount s.absolutes w + entryCount m w = 0
            omega
    · show entryCount m op = 0
      omega
    · show s.absolutes.length + m.length + 1
        = s.absolutes.length + s.durations.length
      omega
    · intro w hw
      exact ⟨rfl, (hc2 w hw).symm⟩

theorem scan_inv (ops : Nat → OpInfo) (s : MuxSt) (hInv : MuxInv ops s) :
    MuxInv ops (do_timeout_io_addNew ops s) := by
  unfold do_timeout_io_addNew
  refine (foldAdd_inv ops _ s hInv ?_ ?_).1
  · exact List.Nodup.sublist (List.takeWhile_sublist _)
      (List.nodup_reverse.mpr hInv.1)
  · intro op hop
    constructor
    · have : op ∈ s.pending.reverse :=
        (List.takeWhile_sublist _).subset hop
      exact List.mem_reverse.mp this
    · have := List.mem_takeWhile_imp hop
      simpa using this

theorem muxStep_inv (ops : Nat → OpInfo) (s : MuxSt) (e : MuxEvent)
    (s' : MuxSt) (h : muxStep ops s e = some s') (hInv : MuxInv ops s) :
    MuxInv ops s' := by
  obtain ⟨hnd, hdl, habs, hdur, hcnt⟩ := hInv
  cases e with
  | reg op =>
    by_cases hg : op ∈ s.pending ∨ op ∈ s.added
    · simp [muxStep, hg] at h
      subst h
      exact ⟨hnd, hdl, habs, hdur, hcnt⟩
    · simp [muxStep, hg] at h
      push_neg at hg
      unfold register_pending_io at h
      by_cases hdead : hasDeadline (ops op) = true
      · rw [if_pos hdead] at h
        subst h
        refine ⟨?_, ?_, habs, hdur, ?_⟩
        · simp [List.nodup_append, hnd, hg.1]
        · intro w hw
          rcases List.mem_append.mp hw with h1 | h1
          · exact hdl w h1
          · simp at h1
            subst h1
            exact hdead
        · intro w
          have := hcnt w
          by_cases hweq : w = op
          · subst hweq
            rw [if_neg (by simp [hg.1])] at this
            rw [if_neg (by rintro ⟨hc, -⟩; exact hg.2 hc)]
            exact this
          · show entryCount s.absolutes w + entryCount s.durations w =
              if w ∈ s.added ∧ w ∈ s.pending ++ [op] then 1 else 0
            by_cases hws : w ∈ s.added ∧ w ∈ s.pending
            · rw [if_pos ⟨hws.1, by simp [hws.2]⟩]
              rwa [if_pos hws] at this
            · rw [if_neg ?_]
              · rwa [if_neg hws] at this
              · rintro ⟨h1, h2⟩
                apply hws
                refine ⟨h1, ?_⟩
                rcases List.mem_append.mp h2 with h3 | h3
                · exact h3
                · simp at h3
                  exact absurd h3 hweq
      · rw [if_neg hdead] at h
        subst h
        exact ⟨hnd, hdl, habs, hdur, hcnt⟩
  | scan =>
    simp [muxStep] at h
    subst h
    exact scan_inv ops s ⟨hnd, hdl, habs, hdur, hcnt⟩
  | dereg op =>
    by_cases hg : op ∈ s.pending
    · simp only [muxStep, if_pos hg] at h
      by_cases hadd : op ∈ s.added
      · obtain ⟨s'', hs'', hInv'', -⟩ :=
          dereg_inv ops s op ⟨hnd, hdl, habs, hdur, hcnt⟩ hg hadd
        rw [hs''] at h
        simp at h
        subst h
        exact hInv''
      · unfold deregister_pending_io at h
        rw [if_neg hadd] at h
        simp at h
        subst h
        exact ⟨hnd, hdl, habs, hdur, hcnt⟩
    · simp [muxStep, hg] at h
      subst h
      exact ⟨hnd, hdl, habs, hdur, hcnt⟩

theorem muxRun_inv (ops : Nat → OpInfo) (evs : List MuxEvent) :
    ∀ (s s' : MuxSt), muxRun ops s evs = some s' → MuxInv ops s →
    MuxInv ops s' := by
  induction evs with
  | nil =>
    intro s s' h hi
    simp [muxRun] at h
    subst h
    exact hi
  | cons e es ih =>
    intro s s' h hi
    simp only [muxRun] at h
    cases hstep : muxStep ops s e with
    | none => rw [hstep] at h; exact absurd h (by simp)
    | some s1 =>
      rw [hstep] at h
      exact ih s1 s' h (muxStep_inv ops s e s1 hstep hi)

theorem muxInit_inv (ops : Nat → OpInfo) : MuxInv ops MuxSt.init := by
  refine ⟨by simp [MuxSt.init], by simp [MuxSt.init], by simp [MuxSt.init],
    by simp [MuxSt.init], ?_⟩
  intro op
  simp [MuxSt.init, entryCount]

/-- C9: along every admissible event sequence (registrations, timeout
scans, deregistrations) from the empty multiplexer, every pending
operation with `is_added_to_deadline_list` set has exactly one entry in
exactly one of the two deadline maps — the wall-clock map when
`deadline_absolute` is set, otherwise the steady map — and deregistering
it succeeds and removes exactly that entry, leaving every other
operation's entries untouched. -/
theorem deadline_map_exactly_one (ops : Nat → OpInfo) (evs : List MuxEvent)
    (s : MuxSt) (h : muxRun ops MuxSt.init evs = some s) :
    (∀ op, op ∈ s.pending → op ∈ s.added →
       ((ops op).deadlineAbsolute ≠ 0 →
          entryCount s.absolutes op = 1 ∧ entryCount s.durations op = 0) ∧
       ((ops op).deadlineAbsolute = 0 →
          entryCount s.absolutes op = 0 ∧ entryCount s.durations op = 1)) ∧
    (∀ op, op ∈ s.pending → op ∈ s.added →
       ∃ s', deregister_pending_io ops s op = some s' ∧
         entryCount s'.absolutes op = 0 ∧ entryCount s'.durations op = 0 ∧
         s'.absolutes.length + s'.durations.length + 1
           = s.absolutes.length + s.durations.length ∧
         (∀ w, w ≠ op →
           entryCount s'.absolutes w = entryCount s.absolutes w ∧
           entryCount s'.durations w = entryCount s.durations w)) := by
  have hInv := muxRun_inv ops evs MuxSt.init s h (muxInit_inv ops)
  constructor
  · intro op hp ha
    obtain ⟨hnd, hdl, habs, hdur, hcnt⟩ := hInv
    have hone : entryCount s.absolutes op + entryCount s.durations op = 1 := by
      have := hcnt op
      rwa [if_pos ⟨ha, hp⟩] at this
    constructor
    · intro hA
      have hdzero : entryCount s.durations op = 0 := by
        apply countP_zero_of_none
        intro e he hc
        exact absurd ((hdur e he).2.1) (by rw [hc]; exact hA)
      exact ⟨by omega, hdzero⟩
    · intro hA0
      have hazero : entryCount s.absolutes op = 0 := by
        apply countP_zero_of_none
        intro e he hc
        exact absurd ((habs e he).2) (by rw [hc, hA0]; simp)
      exact ⟨hazero, by omega⟩
  · intro op hp ha
    obtain ⟨s', h1, -, -, h3, h4, h5, h6⟩ := dereg_inv ops s op hInv hp ha
    exact ⟨s', h1, h3, h4, h5, h6⟩

theorem deadline_map_exactly_one_witness :
    entryCount (MuxSt.mk [1] [1] [(5, 1)] []).absolutes 1 = 1 ∧
    entryCount (MuxSt.mk [1] [1] [(5, 1)] []).durations 1 = 0 :=
  ((deadline_map_exactly_one (fun _ => ⟨5, 0⟩) [.reg 1, .scan]
      ⟨[1], [1], [(5, 1)], []⟩ rfl).1 1 (by decide) (by decide)).1 (by decide)
